import Mathlib

/-!
# LADFA post-processor: a shallow embedding with verified properties

This file embeds the core of `post_processor.py` — the entity-normalization,
graph-construction and network-analytics engine of the LADFA pipeline — as
executable Lean definitions, and proves (or refutes) the behavioural claims
made about it.

Modelling conventions:

* Python strings are modelled as `PyStr := List Char`; all string operations
  used by the code (whitespace `split`, `' '.join`, `str.replace`, `str.find`,
  slicing with negative indices, substring tests) are hand-rolled structural
  recursions so that concrete runs evaluate inside `decide`/`rfl`.
* Python `dict`s are insertion-ordered association lists.
* Fallible Python code (unguarded division, subscripting `None`) is modelled
  with `Except String`: an `Except.error` value marks the point where CPython
  would raise.
* External collaborators that the source calls but does not define —
  `inflect.engine().singular_noun` and the two spaCy-based helpers
  `get_main` / `get_poss` — are parameters (`Externals`), since their
  behaviour is a property of third-party libraries, not of this repository.
  `json.loads` outcomes are likewise modelled by `Option`-valued parsed
  fields on the input row.
* Python `sorted` is a stable sort; it is embedded as a stable insertion
  sort with the same comparator discipline (`reverse=True` keeps the
  original order of equal keys).
-/

/-- Python strings, modelled as their character lists. -/
abbrev PyStr := List Char

/-- Insertion-ordered dictionary with `PyStr` keys and values
(Python `dict` used for the shared abbreviation map and category map). -/
abbrev AbbrDict := List (PyStr × PyStr)

/-- First-match association lookup (Python `dict[k]` / `k in dict`). -/
def lookupA (k : PyStr) : AbbrDict → Option PyStr
  | [] => none
  | (a, b) :: rest => if a = k then some b else lookupA k rest

/-- `if k not in dict: dict[k] = v` — insert only when the key is absent,
appending at the end (Python dicts preserve insertion order). -/
def insertIfAbsent (k v : PyStr) (d : AbbrDict) : AbbrDict :=
  if (lookupA k d).isSome then d else d ++ [(k, v)]

/-- Python slice `l[:n]`: a nonnegative stop takes a prefix, a negative stop
drops `|n|` elements from the end (empty when `|n| ≥ len(l)`). -/
def pyTake (l : List α) (n : ℤ) : List α :=
  if 0 ≤ n then l.take n.toNat else l.take (l.length - (-n).toNat)

/-- Python slice `l[n:]` for the start index. -/
def pySliceFrom (l : List α) (n : ℤ) : List α :=
  if 0 ≤ n then l.drop n.toNat else l.drop (l.length - (-n).toNat)

/-- Python `str.find(c)` for a single character: first index, `-1` if absent. -/
def listFind (c : Char) : PyStr → ℤ
  | [] => -1
  | x :: rest =>
    if x = c then 0 else
      let r := listFind c rest
      if r = -1 then -1 else r + 1

/-- Prefix test on character lists (`str.startswith`). -/
def isPre : PyStr → PyStr → Bool
  | [], _ => true
  | _ :: _, [] => false
  | a :: as', b :: bs => a = b && isPre as' bs

/-- Python substring test `pat in hay` / `hay.find(pat) >= 0`
(the empty pattern occurs in every string, as in CPython). -/
def subOccurs (pat : PyStr) : PyStr → Bool
  | [] => isPre pat []
  | c :: rest => isPre pat (c :: rest) || subOccurs pat rest

/-- One pass of Python `str.replace(pat, '')` driven by fuel:
remove the non-overlapping occurrences of `pat`, scanning left-to-right. -/
def removeOcc (pat : PyStr) : ℕ → PyStr → PyStr
  | _, [] => []
  | 0, l => l
  | fuel + 1, c :: rest =>
    if pat ≠ [] ∧ isPre pat (c :: rest) then
      removeOcc pat fuel ((c :: rest).drop pat.length)
    else
      c :: removeOcc pat fuel rest

/-- Python `str.replace(pat, '')` (total wrapper; the fuel bound
`length` dominates the number of scanning steps). -/
def pyRemove (pat l : PyStr) : PyStr := removeOcc pat l.length l

/-- Python whitespace `str.split()` (no separator argument): split on runs of
whitespace, discarding empty fields — fuel-driven worker. -/
def pySplitAux : ℕ → PyStr → List PyStr
  | 0, _ => []
  | _, [] => []
  | fuel + 1, l =>
    let l1 := l.dropWhile Char.isWhitespace
    match l1 with
    | [] => []
    | _ :: _ =>
      l1.takeWhile (fun c => ¬ c.isWhitespace) ::
        pySplitAux fuel (l1.dropWhile (fun c => ¬ c.isWhitespace))

/-- Python whitespace `str.split()`. -/
def pySplit (l : PyStr) : List PyStr := pySplitAux l.length l

/-- Python `' '.join(words)`. -/
def joinSpace : List PyStr → PyStr
  | [] => []
  | w :: ws =>
    match ws with
    | [] => w
    | _ :: _ => w ++ ' ' :: joinSpace ws

/-- `remove_spaces` from the source: strip one leading space; afterwards, if
the remaining text is exactly a single space, slice it down to the empty
string (`text[0:len(text)-2]`).  CPython raises `IndexError` on the empty
string; the call sites all guard for or produce nonempty input, so the model
maps `[]` to `[]`. -/
def remove_spaces (l : PyStr) : PyStr :=
  let t : PyStr :=
    match l with
    | [] => []
    | c :: rest => if c = ' ' then rest else c :: rest
  if t = [' '] then [] else t

section TopN

/-- Stable insertion into a sorted accumulator: walk past `y` while
`pass y x` holds, so that later-arriving equal keys land after earlier ones —
the stability discipline of Python `sorted`. -/
def insL (pass : α → α → Bool) (x : α) : List α → List α
  | [] => [x]
  | y :: ys => if pass y x then y :: insL pass x ys else x :: y :: ys

/-- Stable sort (Python `sorted(..., key=..., reverse=...)` as used by
`process`): fold the input in order, inserting each element behind the
elements the comparator lets it pass. -/
def sortL (pass : α → α → Bool) (l : List α) : List α :=
  l.foldl (fun acc x => insL pass x acc) []

/-- Comparator of `sorted(input_data.items(), key=lambda x: x[1])`
(ascending by score, stable). -/
def ascPass (y x : PyStr × ℚ) : Bool := decide (y.2 ≤ x.2)

/-- Comparator of `sorted(..., key=lambda x: x[1], reverse=True)`
(descending by score, stable). -/
def descPass (y x : PyStr × ℚ) : Bool := decide (x.2 ≤ y.2)

/-- `process(input_data, top_n)` from the source: a centrality ranking
(insertion-ordered map node ↦ score) is sorted descending and sliced
`[:top_n]` when `top_n > 0`, otherwise sorted ascending and sliced
`[:top_n]` — the Python slice, including its negative-index semantics. -/
def process (input_data : List (PyStr × ℚ)) (top_n : ℤ) : List (PyStr × ℚ) :=
  if 0 < top_n then pyTake (sortL descPass input_data) top_n
  else pyTake (sortL ascPass input_data) top_n

theorem length_insL (pass : α → α → Bool) (x : α) (l : List α) :
    (insL pass x l).length = l.length + 1 := by
  induction l with
  | nil => rfl
  | cons y ys ih =>
    simp only [insL]
    split
    · simp [ih]
    · simp

theorem perm_insL (pass : α → α → Bool) (x : α) (l : List α) :
    (insL pass x l).Perm (x :: l) := by
  induction l with
  | nil => rfl
  | cons y ys ih =>
    simp only [insL]
    split
    · exact ((ih.cons y).trans (List.Perm.swap x y ys))
    · rfl

theorem perm_sortL (pass : α → α → Bool) (l : List α) :
    (sortL pass l).Perm l := by
  suffices h : ∀ acc : List α,
      (l.foldl (fun acc x => insL pass x acc) acc).Perm (l ++ acc) by
    simpa using h []
  induction l with
  | nil => intro acc; simp
  | cons a l ih =>
    intro acc
    have h1 : (l.foldl (fun acc x => insL pass x acc) (insL pass a acc)).Perm
        (l ++ insL pass a acc) := ih _
    have h2 : (l ++ insL pass a acc).Perm (l ++ a :: acc) :=
      List.Perm.append_left l (perm_insL pass a acc)
    have h3 : (l ++ a :: acc).Perm (a :: (l ++ acc)) := List.perm_middle
    exact h1.trans (h2.trans h3)

theorem length_sortL (pass : α → α → Bool) (l : List α) :
    (sortL pass l).length = l.length :=
  (perm_sortL pass l).length_eq

theorem mem_insL {pass : α → α → Bool} {x a : α} {l : List α}
    (h : a ∈ insL pass x l) : a = x ∨ a ∈ l := by
  have := (perm_insL pass x l).mem_iff.mp h
  rcases List.mem_cons.mp this with h' | h'
  · exact Or.inl h'
  · exact Or.inr h'

theorem pairwise_insL {R : α → α → Prop} {pass : α → α → Bool}
    (htr : ∀ a b c, R a b → R b c → R a c)
    (h1 : ∀ a b, pass a b = true → R a b)
    (h2 : ∀ a b, pass a b = false → R b a)
    (x : α) {l : List α} (hl : l.Pairwise R) :
    (insL pass x l).Pairwise R := by
  induction l with
  | nil => simp [insL]
  | cons y ys ih =>
    rcases List.pairwise_cons.mp hl with ⟨hy, hys⟩
    simp only [insL]
    by_cases hp : pass y x = true
    · rw [if_pos hp]
      refine List.pairwise_cons.mpr ⟨?_, ih hys⟩
      intro b hb
      rcases mem_insL hb with rfl | hb
      · exact h1 _ _ hp
      · exact hy b hb
    · rw [if_neg (by simpa using hp)]
      have hxy : R x y := h2 _ _ (by simpa using hp)
      refine List.pairwise_cons.mpr ⟨?_, hl⟩
      intro b hb
      rcases List.mem_cons.mp hb with rfl | hb
      · exact hxy
      · exact htr _ _ _ hxy (hy b hb)

theorem pairwise_sortL {R : α → α → Prop} {pass : α → α → Bool}
    (htr : ∀ a b c, R a b → R b c → R a c)
    (h1 : ∀ a b, pass a b = true → R a b)
    (h2 : ∀ a b, pass a b = false → R b a)
    (l : List α) : (sortL pass l).Pairwise R := by
  suffices h : ∀ acc : List α, acc.Pairwise R →
      (l.foldl (fun acc x => insL pass x acc) acc).Pairwise R from
    h [] (by simp)
  induction l with
  | nil => intro acc hacc; exact hacc
  | cons a l ih =>
    intro acc hacc
    exact ih _ (pairwise_insL htr h1 h2 a hacc)

/-- A concrete 5-node centrality ranking, scores already ascending in
insertion order. -/
def exRanking : List (PyStr × ℚ) :=
  [("a".toList, 1), ("b".toList, 2), ("c".toList, 3),
   ("d".toList, 4), ("e".toList, 5)]

/-- **C1 — counterexample.** The claim says that for `N = -2` on a 5-node
ranking, `process` returns exactly the 2 lowest-scoring entries.  In fact the
Python slice `sorted_results[:top_n]` with a negative `top_n` keeps all but
the last `|N|` elements: on this 5-node ranking `process` returns the 3
lowest-scoring entries, not 2. -/
theorem process_bottomN_cex :
    process exRanking (-2) =
      [("a".toList, 1), ("b".toList, 2), ("c".toList, 3)] ∧
    (process exRanking (-2)).length ≠ 2 := by
  constructor
  · decide
  · decide

/-- **C1 — amended claim.** For every ranking and every `N < 0`, `process`
sorts ascending by score (stably) and returns all but the `|N|`
highest-scoring entries — that is, `max(|ranking| - |N|, 0)` entries, the
lowest-scoring ones in ascending order (a prefix of the stable ascending
sort, which is a permutation of the ranking).  For `N > 0` it sorts
descending and returns the `N` highest, as the claim states. -/
theorem process_bottomN_amended (input : List (PyStr × ℚ)) (n : ℤ) :
    (n < 0 →
      (process input n).length = input.length - min input.length (-n).toNat ∧
      (process input n).Pairwise (fun a b => a.2 ≤ b.2) ∧
      (∃ rest, process input n ++ rest = sortL ascPass input) ∧
      (sortL ascPass input).Perm input) ∧
    (0 < n →
      (process input n).length = min n.toNat input.length ∧
      (process input n).Pairwise (fun a b => b.2 ≤ a.2) ∧
      (∃ rest, process input n ++ rest = sortL descPass input) ∧
      (sortL descPass input).Perm input) := by
  have hperm_a : (sortL ascPass input).Perm input := perm_sortL _ _
  have hperm_d : (sortL descPass input).Perm input := perm_sortL _ _
  have hsorted_a : (sortL ascPass input).Pairwise
      (fun a b : PyStr × ℚ => a.2 ≤ b.2) :=
    @pairwise_sortL (PyStr × ℚ) (fun a b => a.2 ≤ b.2) ascPass
      (fun _ _ _ hab hbc => le_trans hab hbc)
      (fun _ _ h => of_decide_eq_true h)
      (fun _ _ h => le_of_not_le (of_decide_eq_false h)) input
  have hsorted_d : (sortL descPass input).Pairwise
      (fun a b : PyStr × ℚ => b.2 ≤ a.2) :=
    @pairwise_sortL (PyStr × ℚ) (fun a b => b.2 ≤ a.2) descPass
      (fun _ _ _ hab hbc => le_trans hbc hab)
      (fun _ _ h => of_decide_eq_true h)
      (fun _ _ h => le_of_not_le (of_decide_eq_false h)) input
  constructor
  · intro hn
    have hproc : process input n =
        (sortL ascPass input).take ((sortL ascPass input).length - (-n).toNat) := by
      simp [process, pyTake, if_neg (by omega : ¬ (0:ℤ) < n),
        if_neg (by omega : ¬ (0:ℤ) ≤ n)]
    refine ⟨?_, ?_, ⟨(sortL ascPass input).drop
      ((sortL ascPass input).length - (-n).toNat), ?_⟩, hperm_a⟩
    · rw [hproc, List.length_take, hperm_a.length_eq]
      omega
    · rw [hproc]
      exact List.Pairwise.sublist (List.take_sublist _ _) hsorted_a
    · rw [hproc]
      exact List.take_append_drop _ _
  · intro hn
    have hproc : process input n = (sortL descPass input).take n.toNat := by
      simp [process, pyTake, if_pos hn, if_pos (by omega : (0:ℤ) ≤ n)]
    refine ⟨?_, ?_, ⟨(sortL descPass input).drop n.toNat, ?_⟩, hperm_d⟩
    · rw [hproc, List.length_take, hperm_d.length_eq]
    · rw [hproc]
      exact List.Pairwise.sublist (List.take_sublist _ _) hsorted_d
    · rw [hproc]
      exact List.take_append_drop _ _

/-- Witness for `process_bottomN_amended`: the negative-count branch at the
concrete 5-node ranking with `N = -2`. -/
theorem process_bottomN_amended_witness :
    (process exRanking (-2)).length
        = exRanking.length - min exRanking.length (-(-2 : ℤ)).toNat ∧
    (process exRanking (-2)).Pairwise (fun a b : PyStr × ℚ => a.2 ≤ b.2) ∧
    (∃ rest, process exRanking (-2) ++ rest = sortL ascPass exRanking) ∧
    (sortL ascPass exRanking).Perm exRanking :=
  (process_bottomN_amended exRanking (-2)).1 (by decide)

end TopN

section Abbrev

/-- `re.findall(r'\(([^)]+)\)', text)`: the contents of the non-empty
parenthetical groups, scanning left to right.  A group runs from a `'('` to
the next `')'` and may itself contain further `'('` characters, exactly as
the greedy `[^)]+` matches them.  Fuel-driven worker (the consumed input
shrinks at every recursive call). -/
def findGroupsAux : ℕ → PyStr → List PyStr
  | 0, _ => []
  | _, [] => []
  | fuel + 1, c :: rest =>
    if c = '(' then
      match rest.dropWhile (fun x => x ≠ ')') with
      | [] => []
      | _ :: rest2 =>
        let grp := rest.takeWhile (fun x => x ≠ ')')
        if grp = [] then findGroupsAux fuel rest2
        else grp :: findGroupsAux fuel rest2
    else findGroupsAux fuel rest

/-- `re.findall(r'\(([^)]+)\)', text)`. -/
def findGroups (l : PyStr) : List PyStr := findGroupsAux l.length l

/-- First half of the single-token branch of `get_abbreviation`: compare the
candidate abbreviation with the initials of the `len(abbreviation)` words
immediately preceding the parenthetical.  On a match, remove every `'('`,
`')'` and every occurrence of the abbreviation from the original text,
register `abbreviation → phrase` if the key is absent, and run
`remove_spaces`; otherwise leave text and dictionary untouched. -/
def abbrSingleSub1 (text : PyStr) (dict : AbbrDict) (abbr sub1 : PyStr) :
    PyStr × AbbrDict :=
  let arr := pySplit sub1
  if abbr.length ≤ arr.length then
    let temp := arr.drop (arr.length - abbr.length)
    let initials := temp.map (fun w => w.headD ' ')
    let full := remove_spaces (joinSpace temp)
    if abbr = initials then
      (remove_spaces (pyRemove abbr
          ((text.filter (fun c => c ≠ '(')).filter (fun c => c ≠ ')'))),
       insertIfAbsent abbr full dict)
    else (text, dict)
  else (text, dict)

/-- Second half of the single-token branch: compare against the initials of
the `len(abbreviation)` words immediately following the parenthetical.  On a
match the replacement restarts from the *original* text (overwriting the
result of the first half, as the source does); otherwise the current state
passes through. -/
def abbrSingleSub2 (text : PyStr) (cur : PyStr × AbbrDict) (abbr sub2 : PyStr) :
    PyStr × AbbrDict :=
  let arr := pySplit sub2
  if abbr.length ≤ arr.length then
    let temp := arr.take abbr.length
    let initials := temp.map (fun w => w.headD ' ')
    let full := remove_spaces (joinSpace temp)
    if abbr = initials then
      (remove_spaces (pyRemove abbr
          ((text.filter (fun c => c ≠ '(')).filter (fun c => c ≠ ')'))),
       insertIfAbsent abbr full cur.2)
    else cur
  else cur

/-- One side of the multi-token branch of `get_abbreviation`: the
concatenated initials of the parenthetical tokens are the candidate
abbreviation and it is compared against the *last word* of the neighbouring
substring; on a match the whole neighbouring substring is removed and
`abbreviation → substring` registered if absent. -/
def abbrMulti (text : PyStr) (cur : PyStr × AbbrDict) (abbr sub : PyStr) :
    PyStr × AbbrDict :=
  let arr := pySplit sub
  if 0 < arr.length then
    if abbr = arr.getLastD [] then
      (remove_spaces (pyRemove sub
          ((text.filter (fun c => c ≠ '(')).filter (fun c => c ≠ ')'))),
       insertIfAbsent abbr sub cur.2)
    else cur
  else cur

/-- `get_abbreviation(text, abbreviation_dict)` from the source: only texts
with exactly one parenthetical group are processed; `sub_string_1` is
`text[0:pos_1-1]` (Python slice, so a `'('` at position 0 wraps to
`text[0:-1]`), `sub_string_2` is `text[pos_2+1:]`; a single-token group runs
the two initials comparisons in sequence, a multi-token group the two
last-word comparisons. -/
def get_abbreviation (text : PyStr) (dict : AbbrDict) : PyStr × AbbrDict :=
  match findGroups text with
  | [grp] =>
    let tmp_arr := pySplit grp
    let pos_1 := listFind '(' text
    let pos_2 := listFind ')' text
    let sub1 := pyTake text (pos_1 - 1)
    let sub2 := pySliceFrom text (pos_2 + 1)
    if tmp_arr.length = 1 then
      abbrSingleSub2 text (abbrSingleSub1 text dict (tmp_arr.headD []) sub1)
        (tmp_arr.headD []) sub2
    else if 1 < tmp_arr.length then
      let abbr := tmp_arr.map (fun w => w.headD ' ')
      abbrMulti text (abbrMulti text (text, dict) abbr sub1) abbr sub2
    else (text, dict)
  | _ => (text, dict)

theorem lookupA_append_left {k v : PyStr} {d : AbbrDict} (d' : AbbrDict)
    (h : lookupA k d = some v) : lookupA k (d ++ d') = some v := by
  induction d with
  | nil => simp [lookupA] at h
  | cons p rest ih =>
    obtain ⟨a, b⟩ := p
    simp only [lookupA, List.cons_append] at h ⊢
    split at h
    · simp_all
    · simp only [if_neg (by assumption)]
      exact ih h

theorem lookupA_insertIfAbsent {k v : PyStr} (a b : PyStr) {d : AbbrDict}
    (h : lookupA k d = some v) : lookupA k (insertIfAbsent a b d) = some v := by
  simp only [insertIfAbsent]
  split
  · exact h
  · exact lookupA_append_left _ h

theorem abbrSingleSub1_dict {text : PyStr} {dict : AbbrDict} {abbr sub1 : PyStr}
    {k v : PyStr} (h : lookupA k dict = some v) :
    lookupA k (abbrSingleSub1 text dict abbr sub1).2 = some v := by
  simp only [abbrSingleSub1]
  split
  · split
    · exact lookupA_insertIfAbsent _ _ h
    · exact h
  · exact h

theorem abbrSingleSub2_dict {text : PyStr} {cur : PyStr × AbbrDict}
    {abbr sub2 : PyStr} {k v : PyStr} (h : lookupA k cur.2 = some v) :
    lookupA k (abbrSingleSub2 text cur abbr sub2).2 = some v := by
  simp only [abbrSingleSub2]
  split
  · split
    · exact lookupA_insertIfAbsent _ _ h
    · exact h
  · exact h

theorem abbrMulti_dict {text : PyStr} {cur : PyStr × AbbrDict}
    {abbr sub : PyStr} {k v : PyStr} (h : lookupA k cur.2 = some v) :
    lookupA k (abbrMulti text cur abbr sub).2 = some v := by
  simp only [abbrMulti]
  split
  · split
    · exact lookupA_insertIfAbsent _ _ h
    · exact h
  · exact h

/-- The shared dictionary is only ever extended at absent keys: an existing
entry survives any number of `get_abbreviation` calls unchanged. -/
theorem get_abbreviation_dict (text : PyStr) (dict : AbbrDict) {k v : PyStr}
    (h : lookupA k dict = some v) :
    lookupA k (get_abbreviation text dict).2 = some v := by
  simp only [get_abbreviation]
  split
  · split
    · exact abbrSingleSub2_dict (abbrSingleSub1_dict h)
    · split
      · exact abbrMulti_dict (abbrMulti_dict h)
      · exact h
  · exact h

/-- The spec's round-trip example text. -/
def gpsText : PyStr := "Global Positioning System (GPS) data".toList

/-- **C4 — counterexample.** On `"Global Positioning System (GPS) data"` the
folder registers `GPS → Global Positioning System` and removes the
parenthesis markers and the abbreviation token — but the matched expanded
phrase `"Global Positioning System"` is *not* removed: it is still a
substring of the emitted text, which is
`"Global Positioning System  data"` (with the leftover double space). -/
theorem abbreviation_fold_cex :
    (get_abbreviation gpsText []).1 = "Global Positioning System  data".toList ∧
    subOccurs "Global Positioning System".toList
      (get_abbreviation gpsText []).1 = true := by
  exact ⟨by decide, by decide⟩

/-- **C4 — amended claim.** For a single-token parenthetical whose letters
match the initials of the preceding words, the folder registers
`abbreviation → matched phrase` in the shared dictionary (first registration
wins: an existing entry is never overwritten), and returns the text with the
parenthesis markers and the abbreviation token removed and at most one
leading space stripped; the matched expanded phrase is *retained* in the
emitted text.  In particular `"Global Positioning System (GPS) data"`
registers `GPS → Global Positioning System` and emits
`"Global Positioning System  data"`, which contains no parenthesis and no
`GPS` token but still contains the expansion. -/
theorem abbreviation_fold_amended :
    (∀ (text : PyStr) (dict : AbbrDict) (k v : PyStr),
        lookupA k dict = some v →
        lookupA k (get_abbreviation text dict).2 = some v) ∧
    (get_abbreviation gpsText []).1 = "Global Positioning System  data".toList ∧
    (get_abbreviation gpsText []).2
        = [("GPS".toList, "Global Positioning System".toList)] ∧
    subOccurs "(".toList (get_abbreviation gpsText []).1 = false ∧
    subOccurs ")".toList (get_abbreviation gpsText []).1 = false ∧
    subOccurs "GPS".toList (get_abbreviation gpsText []).1 = false ∧
    subOccurs "Global Positioning System".toList
      (get_abbreviation gpsText []).1 = true := by
  refine ⟨fun text dict k v h => get_abbreviation_dict text dict h,
    by decide, by decide, by decide, by decide, by decide, by decide⟩

/-- Witness for `abbreviation_fold_amended`: with `GPS` pre-registered to a
different phrase, folding the example text leaves the registered entry
unchanged (first registration wins). -/
theorem abbreviation_fold_amended_witness :
    lookupA "GPS".toList [("GPS".toList, "X".toList)] = some "X".toList ∧
    lookupA "GPS".toList
        (get_abbreviation gpsText [("GPS".toList, "X".toList)]).2
      = some "X".toList :=
  ⟨by decide,
   abbreviation_fold_amended.1 gpsText [("GPS".toList, "X".toList)]
     "GPS".toList "X".toList (by decide)⟩

end Abbrev

section Builder

/-- The upper → lower table of the ASCII letters. -/
def lowerTable : List (Char × Char) :=
  [('A','a'), ('B','b'), ('C','c'), ('D','d'), ('E','e'), ('F','f'),
   ('G','g'), ('H','h'), ('I','i'), ('J','j'), ('K','k'), ('L','l'),
   ('M','m'), ('N','n'), ('O','o'), ('P','p'), ('Q','q'), ('R','r'),
   ('S','s'), ('T','t'), ('U','u'), ('V','v'), ('W','w'), ('X','x'),
   ('Y','y'), ('Z','z')]

/-- ASCII model of Python `str.lower` on one character (the repository's
entity strings are ASCII; non-ASCII letters are outside the modelled
alphabet). -/
def pyLower (c : Char) : Char :=
  ((lowerTable.find? (fun p => p.1 = c)).map Prod.snd).getD c

/-- Python `word.isupper()` (ASCII): at least one cased character and no
lower-case cased character. -/
def pyIsUpper (w : PyStr) : Bool := w.any Char.isUpper && !(w.any Char.isLower)

/-- `is_abbreviation(word)` from the source: fully upper-case, or containing
a digit / `&` / `+`, or ending with the possessive marker. -/
def is_abbreviation (w : PyStr) : Bool :=
  pyIsUpper w || w.any (fun c => c.isDigit || c = '&' || c = '+') ||
    decide (w.drop (w.length - 2) = [Char.ofNat 39, 's'])

/-- External linguistic collaborators the source imports but does not
define: `inflect.engine().singular_noun` (`none` models the library
returning `False` on a non-plural word) and the spaCy helpers `get_main`
(dependency-parse root, with the source's noun/identity fallbacks folded
into the function) and `get_poss` (last possessive modifier, identity
fallback likewise folded in). -/
structure Externals where
  singularNoun : PyStr → Option PyStr
  getMain : PyStr → PyStr
  getPoss : PyStr → PyStr

/-- The fixed exclusion list used by both builders. -/
def exclusions : List PyStr :=
  ["Our", "our", "we", "We", "us", "Us", "They", "they", "Them", "them",
   "data", "Data", "address", "Address", "as", "As", "are", "Are", "is",
   "Is", "whether", "Whether", "another", "Another", "Have", "have",
   "Has", "has", "The", "the"].map String.toList

/-- `singularize_phrase(phrase, exclusions)`: pass excluded phrases through;
otherwise split on whitespace and singularize each word unless it is an
abbreviation or excluded (`p.singular_noun(word) or word`), rejoining with
single spaces. -/
def singularize_phrase (E : Externals) (phrase : PyStr)
    (excl : List PyStr) : PyStr :=
  if phrase ∉ excl then
    joinSpace ((pySplit phrase).map fun w =>
      if is_abbreviation w || decide (w ∈ excl) then w
      else ((E.singularNoun w).getD w))
  else phrase

/-- `first_party_entity_arr` from `rectify_collection_party`. -/
def first_party_entity_arr : List PyStr :=
  ["we", "us", "this website", "this company", "this organisation",
   "this organization", "this app", "from you", "our website", "our",
   "our company", "our organisation", "our organization", "our service",
   "our app", "the website", "the company", "the app", "the organization",
   "app", "device", "your app", "your device", "the device", "your car",
   "car"].map String.toList

/-- `first_party_entity_main_root_arr` from `rectify_collection_party`. -/
def first_party_entity_main_root_arr : List PyStr :=
  ["we", "We", "us", "Website", "website", "Company", "company",
   "Organisation", "organisation", "Organization", "organization",
   "App", "app", "Service", "service", "Device", "device", "Car", "car",
   "Site", "site"].map String.toList

/-- `first_party_entity_poss_arr` from `rectify_collection_party`. -/
def first_party_entity_poss_arr : List PyStr :=
  ["this", "our", "This", "Our"].map String.toList

/-- `rectify_collection_party(entity)`: the source's nested loops set the
flag exactly when the entity matches one of the listed first-person phrases,
or its parse root is a listed first-party head noun while its possessive
modifier is this/our (the inner loops recompute the same pure comparison on
every outer iteration, so they collapse to this disjunction). -/
def rectify_collection_party (E : Externals) (entity : PyStr) : Bool :=
  decide (entity ∈ first_party_entity_arr) ||
    (decide (E.getMain entity ∈ first_party_entity_main_root_arr) &&
     decide (E.getPoss entity ∈ first_party_entity_poss_arr))

/-- Result of `get_entity_property`: display color plus the three party
registries after the at-most-one registration. -/
structure EPRes where
  color : String
  fp : List PyStr
  tp : List PyStr
  up : List PyStr
deriving DecidableEq

/-- `if entity not in arr: arr.append(entity)`. -/
def appendIfAbsent (x : PyStr) (l : List PyStr) : List PyStr :=
  if x ∈ l then l else l ++ [x]

/-- `get_entity_property(entity, party_category, main_party, ...)`:
lower-case the entity; empty → sentinel color, no registration; containing
the main party, or passing `rectify_collection_party` → first party; parse
root starting with you/user/customer → user party; the explicit
`"Unspecified"`/`'unspecified party'` sentinel; otherwise third party. -/
def get_entity_property (E : Externals) (main_party entity0 party_category : PyStr)
    (fp tp up : List PyStr) : EPRes :=
  let entity := entity0.map pyLower
  if entity ≠ [] then
    if subOccurs main_party entity then
      { color := "#ccff99", fp := appendIfAbsent entity fp, tp := tp, up := up }
    else if rectify_collection_party E entity then
      { color := "#ccff99", fp := appendIfAbsent entity fp, tp := tp, up := up }
    else if isPre "you".toList (E.getMain entity)
        || isPre "user".toList (E.getMain entity)
        || isPre "customer".toList (E.getMain entity) then
      { color := "#f7ff99", fp := fp, tp := tp, up := appendIfAbsent entity up }
    else if party_category = "Unspecified".toList
        ∧ entity = "unspecified party".toList then
      { color := "#00008B", fp := fp, tp := tp, up := up }
    else
      { color := "#ff99ff", fp := fp, tp := appendIfAbsent entity tp, up := up }
  else { color := "#00008B", fp := fp, tp := tp, up := up }

/-- A parsed `Output` entry (`DataCategory`, `InputText`). -/
structure CatItem where
  dataCategory : PyStr
  inputText : PyStr
deriving DecidableEq

/-- A parsed `flow.data` entry (`data_sender`, `data_receiver`). -/
structure FlowItem where
  sender : PyStr
  receiver : PyStr
deriving DecidableEq

/-- One input row after CSV reading, segment-text resolution and
`load_json_data` on the five JSON columns: `none` marks a field whose parse
failed (`load_json_data` printed the error and returned `None`). -/
structure RawRow where
  idx : String
  rawText : PyStr
  dataType : PyStr
  category : Option (List CatItem)
  flow : Option (List FlowItem)
  party : Option (List CatItem)
  purpose : Option (List CatItem)
  method : Option (List CatItem)
deriving DecidableEq

/-- A graph node with its pyvis attributes; `none` everywhere models a node
auto-created by `add_edge` without attributes. -/
structure Node where
  id : PyStr
  color : Option String
  size : Option ℕ
  title : Option PyStr
  shape : Option String
deriving DecidableEq

/-- A directed edge with its attributes (`group` = segment id, `color` from
the purpose map, `description` = raw segment text, `title` = purpose). -/
structure Edge where
  src : PyStr
  tgt : PyStr
  group : String
  color : String
  description : PyStr
  title : PyStr
  arrows : String
deriving DecidableEq

/-- One entry of `data_output_arr` (step 13 of the builder). -/
structure OutputRow where
  rawText : PyStr
  dataType : PyStr
  dataCategory : PyStr
  sender : PyStr
  receiver : PyStr
  party : PyStr
  purpose : PyStr
  method : PyStr
deriving DecidableEq, Inhabited

/-- The accumulating state of `get_data_flow_graph_revised`. -/
structure BuilderState where
  G : List Edge
  nodes : List Node
  first_party : List PyStr
  third_party : List PyStr
  user_party : List PyStr
  completed : List PyStr
  no_sender : List PyStr
  no_receiver : List PyStr
  category_dic : AbbrDict
  output_rows : List OutputRow
  abbrev_dict : AbbrDict
deriving DecidableEq

/-- All accumulators start empty. -/
def initState : BuilderState :=
  ⟨[], [], [], [], [], [], [], [], [], [], []⟩

/-- Per-run context: the external linguistic collaborators, the main-party
name, and the purpose → color map built once from the taxonomy file
(`generate_distinct_colors` over the configured purposes; the concrete hues
are opaque attribute values here). -/
structure Ctx where
  E : Externals
  main_party : PyStr
  purposeColorMap : List (PyStr × String)

/-- Lookup in the purpose → color map. -/
def lookupColor (k : PyStr) : List (PyStr × String) → Option String
  | [] => none
  | (a, b) :: rest => if a = k then some b else lookupColor k rest

/-- Step-4 normalization chain applied to `data_type` / `data_sender` /
`data_receiver`: singularize with the fixed exclusions, lower-case, remove
every occurrence of the substring `"the"`, fold abbreviations against the
shared dictionary, and finally `remove_spaces` on nonempty strings only
(the builder guards `len(...) > 0`). -/
def normalizeStr (E : Externals) (d : AbbrDict) (s0 : PyStr) : PyStr × AbbrDict :=
  let s1 := (singularize_phrase E s0 exclusions).map pyLower
  let s2 := pyRemove "the".toList s1
  let sd := get_abbreviation s2 d
  (if 0 < sd.1.length then remove_spaces sd.1 else sd.1, sd.2)

/-- Step-2 extraction of `data_category`: parse failure leaves the empty
string, an empty `Output` list yields `'Unspecified'`, otherwise the *last*
item's `DataCategory` wins. -/
def extract_category : Option (List CatItem) → PyStr
  | none => []
  | some items =>
    if 0 < items.length then items.foldl (fun _ it => it.dataCategory) []
    else "Unspecified".toList

/-- Step-3 extraction of `(sender, receiver)` from `flow.data`: the last
item wins; empty list leaves both empty. -/
def extract_flow (items : List FlowItem) : PyStr × PyStr :=
  items.foldl (fun _ it => (it.sender, it.receiver)) ([], [])

/-- Composite dedup key `data_sender + '#' + data_type + '#' + data_receiver`. -/
def mkKey (s t r : PyStr) : PyStr := s ++ '#' :: (t ++ '#' :: r)

/-- `G.has_node(x)`. -/
def hasNode (ns : List Node) (x : PyStr) : Bool :=
  ns.any (fun nd => decide (nd.id = x))

/-- `G.has_edge(u, v)` on the multidigraph: some edge with this ordered
pair. -/
def hasEdgePair (es : List Edge) (u v : PyStr) : Bool :=
  es.any (fun e => decide (e.src = u) && decide (e.tgt = v))

/-- `add_edge` auto-creates missing endpoint nodes without attributes. -/
def ensureNode (ns : List Node) (x : PyStr) : List Node :=
  if hasNode ns x then ns
  else ns ++ [{ id := x, color := none, size := none, title := none, shape := none }]

/-- Steps 6–13 of the builder for a record that passed the validity gate:
dedup-set registration, collection party/purpose/method extraction, party
classification of sender and receiver, purpose-color resolution, node and
edge creation (edges only when the ordered pair is not yet connected), and
the output-row append.  `st` already carries the updated category map and
abbreviation dictionary. -/
def applyAccept (ctx : Ctx) (st : BuilderState) (row : RawRow)
    (data_category t s r : PyStr) (pa pu me : List CatItem) : BuilderState :=
  let key := mkKey s t r
  let completed :=
    if s ≠ [] ∧ r ≠ [] ∧ key ∉ st.completed then st.completed ++ [key]
    else st.completed
  let no_sender :=
    if s = [] ∧ r ≠ [] ∧ key ∉ st.no_sender then st.no_sender ++ [key]
    else st.no_sender
  let no_receiver :=
    if s ≠ [] ∧ r = [] ∧ key ∉ st.no_receiver then st.no_receiver ++ [key]
    else st.no_receiver
  let party : PyStr :=
    match pa with
    | [] => []
    | p0 :: _ =>
      if subOccurs ctx.main_party r then "First Party".toList
      else if rectify_collection_party ctx.E r then "First Party".toList
      else p0.dataCategory
  let purpose := (pu.map (fun it => it.dataCategory ++ "; ".toList)).flatten
  let method : PyStr :=
    match me with
    | [] => []
    | m0 :: _ =>
      let lastM := me.foldl
        (fun acc it => if subOccurs t it.inputText then it.dataCategory else acc) []
      if lastM = [] then m0.dataCategory else lastM
  let ep1 := get_entity_property ctx.E ctx.main_party s party
    st.first_party st.third_party st.user_party
  let ep2 := get_entity_property ctx.E ctx.main_party r party ep1.fp ep1.tp ep1.up
  let pColor := (lookupColor purpose ctx.purposeColorMap).getD "ff000000"
  let senderNode : Node :=
    { id := s, color := some ep1.color, size := some 40,
      title := some (if s = [] then "unknown".toList else s), shape := none }
  let typeNode : Node :=
    { id := t, color := some "#99ccff", size := some 20,
      title := some t, shape := some "box" }
  let receiverNode : Node :=
    { id := r, color := some ep2.color, size := some 40,
      title := some r, shape := none }
  let edge1 : Edge :=
    { src := s, tgt := t, group := row.idx, color := pColor,
      description := row.rawText, title := purpose, arrows := "to" }
  let edge2 : Edge :=
    { src := t, tgt := r, group := row.idx, color := pColor,
      description := row.rawText, title := purpose, arrows := "to" }
  let outRow : OutputRow :=
    { rawText := row.rawText, dataType := t, dataCategory := data_category,
      sender := s, receiver := r, party := party, purpose := purpose,
      method := method }
  let nodes1 :=
    if hasNode st.nodes s then st.nodes else st.nodes ++ [senderNode]
  let nodes2 :=
    if ¬ hasNode nodes1 t ∧ t ≠ [] then nodes1 ++ [typeNode] else nodes1
  let nodes3 :=
    if hasNode nodes2 r then nodes2 else nodes2 ++ [receiverNode]
  let nodes4 :=
    if hasEdgePair st.G s t then nodes3 else ensureNode (ensureNode nodes3 s) t
  let es1 :=
    if hasEdgePair st.G s t then st.G else st.G ++ [edge1]
  let nodes5 :=
    if hasEdgePair es1 t r then nodes4 else ensureNode (ensureNode nodes4 t) r
  let es2 :=
    if hasEdgePair es1 t r then es1 else es1 ++ [edge2]
  { G := es2, nodes := nodes5,
    first_party := ep2.fp, third_party := ep2.tp, user_party := ep2.up,
    completed := completed, no_sender := no_sender, no_receiver := no_receiver,
    category_dic := st.category_dic,
    output_rows := st.output_rows ++ [outRow],
    abbrev_dict := st.abbrev_dict }

/-- One iteration of the per-record loop of `get_data_flow_graph_revised`:
the category map is updated on the raw `data_type` first; a `None` flow
field is subscripted unguarded (`data_flow_json['data']`) and raises; the
three strings are normalized in order through the shared abbreviation
dictionary; the validity gate decides acceptance; inside the gate the
party/purpose/method fields are subscripted unguarded as well.
`Except.error` marks the uncaught Python `TypeError`. -/
def processRowE (ctx : Ctx) (st : BuilderState) (row : RawRow) :
    Except String BuilderState :=
  let data_category := extract_category row.category
  let dic := insertIfAbsent row.dataType data_category st.category_dic
  match row.flow with
  | none => .error "TypeError: NoneType is not subscriptable"
  | some flowItems =>
    let sr := extract_flow flowItems
    let td := normalizeStr ctx.E st.abbrev_dict row.dataType
    let sd := normalizeStr ctx.E td.2 sr.1
    let rd := normalizeStr ctx.E sd.2 sr.2
    let st1 : BuilderState := { st with category_dic := dic, abbrev_dict := rd.2 }
    if sd.1 ≠ td.1 ∧ rd.1 ≠ td.1 ∧ sd.1 ≠ rd.1 then
      match row.party, row.purpose, row.method with
      | some pa, some pu, some me =>
        .ok (applyAccept ctx st1 row data_category td.1 sd.1 rd.1 pa pu me)
      | _, _, _ => .error "TypeError: NoneType is not subscriptable"
    else .ok st1

/-- The whole record loop of `get_data_flow_graph_revised`: fold
`processRowE` over the rows in document order from the empty state. -/
def runE (ctx : Ctx) (rows : List RawRow) : Except String BuilderState :=
  rows.foldlM (processRowE ctx) initState

/-- Invariants preserved by every successful record step hold of every
successful run. -/
theorem foldE_invariant {ctx : Ctx} {P : BuilderState → Prop}
    (hstep : ∀ st row st', P st → processRowE ctx st row = .ok st' → P st') :
    ∀ (rows : List RawRow) (st0 st : BuilderState), P st0 →
      List.foldlM (processRowE ctx) st0 rows = .ok st → P st := by
  intro rows
  induction rows with
  | nil =>
    intro st0 st h0 hrun
    rw [List.foldlM_nil] at hrun
    cases hrun
    exact h0
  | cons row rows ih =>
    intro st0 st h0 hrun
    rw [List.foldlM_cons] at hrun
    cases hmid : processRowE ctx st0 row with
    | error e => rw [hmid] at hrun; cases hrun
    | ok st1 =>
      rw [hmid] at hrun
      exact ih st1 st (hstep st0 row st1 h0 hmid) hrun

/-- Binary step invariants (relating the state before and after) compose
along a successful run. -/
theorem foldE_extends {ctx : Ctx} {Q : BuilderState → BuilderState → Prop}
    (hrefl : ∀ st, Q st st)
    (htrans : ∀ a b c, Q a b → Q b c → Q a c)
    (hstep : ∀ st row st', processRowE ctx st row = .ok st' → Q st st') :
    ∀ (rows : List RawRow) (st0 st : BuilderState),
      List.foldlM (processRowE ctx) st0 rows = .ok st → Q st0 st := by
  intro rows
  induction rows with
  | nil =>
    intro st0 st hrun
    rw [List.foldlM_nil] at hrun
    cases hrun
    exact hrefl st0
  | cons row rows ih =>
    intro st0 st hrun
    rw [List.foldlM_cons] at hrun
    cases hmid : processRowE ctx st0 row with
    | error e => rw [hmid] at hrun; cases hrun
    | ok st1 =>
      rw [hmid] at hrun
      exact htrans _ _ _ (hstep st0 row st1 hmid) (ih st1 st hrun)

/-- `applyAccept` appends exactly one output row, carrying the gate's
normalized triple. -/
theorem applyAccept_output_rows (ctx : Ctx) (st : BuilderState) (row : RawRow)
    (dc t s r : PyStr) (pa pu me : List CatItem) :
    ∃ o : OutputRow,
      (applyAccept ctx st row dc t s r pa pu me).output_rows
          = st.output_rows ++ [o] ∧
      o.dataType = t ∧ o.sender = s ∧ o.receiver = r := by
  simp only [applyAccept]
  exact ⟨_, rfl, rfl, rfl, rfl⟩

/-- A successful record step either rejects (no output row) or appends one
row whose triple passed the validity gate. -/
theorem processRowE_output {ctx : Ctx} {st : BuilderState} {row : RawRow}
    {st' : BuilderState} (h : processRowE ctx st row = .ok st') :
    st'.output_rows = st.output_rows ∨
      ∃ o : OutputRow, st'.output_rows = st.output_rows ++ [o] ∧
        o.sender ≠ o.dataType ∧ o.receiver ≠ o.dataType ∧ o.sender ≠ o.receiver := by
  cases hflow : row.flow with
  | none => simp only [processRowE, hflow] at h; cases h
  | some flowItems =>
    simp only [processRowE, hflow] at h
    split at h
    · next hgate =>
      split at h
      · next pa pu me hpa hpu hme =>
        cases h
        obtain ⟨o, ho, hot, hos, hor⟩ :=
          applyAccept_output_rows ctx _ row _ _ _ _ pa pu me
        refine Or.inr ⟨o, ho, ?_, ?_, ?_⟩
        · rw [hot, hos]; exact hgate.1
        · rw [hot, hor]; exact hgate.2.1
        · rw [hos, hor]; exact hgate.2.2
      · cases h
    · cases h
      exact Or.inl rfl

/-- **C5 — claim theorem.**  For every run of the builder that completes,
every row appended to the output rows list (one per record accepted into
graph construction) has a normalized `(sender, data_type, receiver)` triple
whose three members are pairwise distinct — the empty string participating
in the comparisons like any other value. -/
theorem accepted_triples_distinct (ctx : Ctx) (rows : List RawRow)
    (st : BuilderState) (h : runE ctx rows = .ok st) :
    ∀ o ∈ st.output_rows,
      o.sender ≠ o.dataType ∧ o.receiver ≠ o.dataType ∧ o.sender ≠ o.receiver := by
  refine foldE_invariant (P := fun st => ∀ o ∈ st.output_rows,
    o.sender ≠ o.dataType ∧ o.receiver ≠ o.dataType ∧ o.sender ≠ o.receiver)
    ?_ rows initState st (by intro o ho; cases ho) h
  intro st1 row st2 hP hstep
  rcases processRowE_output hstep with heq | ⟨o, ho, h1, h2, h3⟩
  · rw [heq]; exact hP
  · rw [ho]
    intro o' ho'
    rcases List.mem_append.mp ho' with hmem | hmem
    · exact hP o' hmem
    · rcases List.mem_singleton.mp hmem with rfl
      exact ⟨h1, h2, h3⟩

/-- Two edges do not occupy the same ordered node pair. -/
def edgeDistinct (a b : Edge) : Prop := ¬(a.src = b.src ∧ a.tgt = b.tgt)

theorem hasEdgePair_false {es : List Edge} {u v : PyStr}
    (h : hasEdgePair es u v = false) :
    ∀ e ∈ es, ¬(e.src = u ∧ e.tgt = v) := by
  intro e he hc
  have : hasEdgePair es u v = true := by
    simp only [hasEdgePair, List.any_eq_true]
    exact ⟨e, he, by simp [hc.1, hc.2]⟩
  rw [this] at h
  cases h

theorem pairwise_addEdge {es : List Edge} (hP : es.Pairwise edgeDistinct)
    {u v : PyStr} {e : Edge} (hsrc : e.src = u) (htgt : e.tgt = v) :
    (if hasEdgePair es u v then es else es ++ [e]).Pairwise edgeDistinct := by
  by_cases h : hasEdgePair es u v = true
  · simpa [h] using hP
  · have hfalse : hasEdgePair es u v = false := by
      simpa using h
    rw [if_neg (by simp [hfalse])]
    refine List.pairwise_append.mpr ⟨hP, List.pairwise_singleton _ _, ?_⟩
    intro a ha b hb
    rcases List.mem_singleton.mp hb with rfl
    intro hc
    exact hasEdgePair_false hfalse a ha ⟨hc.1.trans hsrc, hc.2.trans htgt⟩

theorem applyAccept_pairwise {ctx : Ctx} {st : BuilderState} {row : RawRow}
    {dc t s r : PyStr} {pa pu me : List CatItem}
    (hP : st.G.Pairwise edgeDistinct) :
    (applyAccept ctx st row dc t s r pa pu me).G.Pairwise edgeDistinct := by
  simp only [applyAccept]
  refine pairwise_addEdge (pairwise_addEdge hP ?_ ?_) ?_ ?_ <;> rfl

theorem extends_addEdge {es es' : List Edge} (h : ∃ tail, es' = es ++ tail)
    (u v : PyStr) (e : Edge) :
    ∃ tail, (if hasEdgePair es' u v then es' else es' ++ [e]) = es ++ tail := by
  obtain ⟨t1, rfl⟩ := h
  by_cases hc : hasEdgePair (es ++ t1) u v = true
  · exact ⟨t1, by simp [hc]⟩
  · exact ⟨t1 ++ [e], by simp [hc]⟩

theorem applyAccept_G_extends {ctx : Ctx} {st : BuilderState} {row : RawRow}
    {dc t s r : PyStr} {pa pu me : List CatItem} :
    ∃ tail, (applyAccept ctx st row dc t s r pa pu me).G = st.G ++ tail := by
  simp only [applyAccept]
  exact extends_addEdge (extends_addEdge ⟨[], by simp⟩ s t _) t r _

/-- A successful record step only ever appends to the edge list, and
preserves the one-edge-per-ordered-pair invariant. -/
theorem processRowE_G {ctx : Ctx} {st : BuilderState} {row : RawRow}
    {st' : BuilderState} (h : processRowE ctx st row = .ok st') :
    (∃ tail, st'.G = st.G ++ tail) ∧
    (st.G.Pairwise edgeDistinct → st'.G.Pairwise edgeDistinct) := by
  cases hflow : row.flow with
  | none => simp only [processRowE, hflow] at h; cases h
  | some flowItems =>
    simp only [processRowE, hflow] at h
    split at h
    · split at h
      · next pa pu me _ _ _ =>
        cases h
        exact ⟨applyAccept_G_extends, fun hp => applyAccept_pairwise hp⟩
      · cases h
    · cases h
      exact ⟨⟨[], by simp⟩, fun hp => hp⟩

/-- Concrete externals for the witness runs: a singularizer that changes no
word (inflect returns `False` on every word involved) and identity parse
helpers (every phrase is its own root and possessive). -/
def E0 : Externals := ⟨fun _ => none, fun s => s, fun s => s⟩

/-- Context of the audi example: main party `"audi"`, two mapped purposes. -/
def ctx6 : Ctx :=
  ⟨E0, "audi".toList,
   [("P1; ".toList, "#111111"), ("P2; ".toList, "#222222")]⟩

/-- First audi record: flow `audi → email address → insurer`, purpose `P1`. -/
def row61 : RawRow :=
  { idx := "2", rawText := "seg one".toList, dataType := "email address".toList,
    category := some [⟨"Contact".toList, "x".toList⟩],
    flow := some [⟨"audi".toList, "insurer".toList⟩],
    party := some [⟨"Third Party".toList, "x".toList⟩],
    purpose := some [⟨"P1".toList, "x".toList⟩],
    method := some [⟨"M1".toList, "x".toList⟩] }

/-- Second audi record: the same ordered pairs, purpose `P2`, another
segment. -/
def row62 : RawRow :=
  { idx := "3", rawText := "seg two".toList, dataType := "email address".toList,
    category := some [⟨"Contact".toList, "x".toList⟩],
    flow := some [⟨"audi".toList, "insurer".toList⟩],
    party := some [⟨"Third Party".toList, "x".toList⟩],
    purpose := some [⟨"P2".toList, "x".toList⟩],
    method := some [⟨"M1".toList, "x".toList⟩] }

/-- State after running the builder on the two audi records. -/
def st6 : BuilderState := (runE ctx6 [row61, row62]).toOption.getD initState

/-- State after the first audi record alone. -/
def st61 : BuilderState := (runE ctx6 [row61]).toOption.getD initState

/-- **C6 — claim theorem.**  (1) In every completed run the graph holds at
most one edge per ordered node pair, and a run extended by further records
only appends edges — existing edges keep their attributes unchanged
(first-writer-wins).  (2) Concretely, two records both producing the ordered
pair `(sender="audi", type="email address")` yield exactly one edge on that
pair, carrying the first record's purpose color `#111111` and description
`"seg one"` (the graph has just the two edges of the first record). -/
theorem edge_idempotence :
    (∀ ctx rows st, runE ctx rows = .ok st →
      st.G.Pairwise edgeDistinct ∧
      ∀ rows₂ st₂, runE ctx (rows ++ rows₂) = .ok st₂ →
        ∃ tail, st₂.G = st.G ++ tail) ∧
    st6.G.filter (fun e => decide (e.src = "audi".toList)
        && decide (e.tgt = "email address".toList))
      = [{ src := "audi".toList, tgt := "email address".toList, group := "2",
           color := "#111111", description := "seg one".toList,
           title := "P1; ".toList, arrows := "to" }] ∧
    st6.G.length = 2 := by
  refine ⟨?_, by decide, by decide⟩
  intro ctx rows st h
  constructor
  · exact foldE_invariant (P := fun st => st.G.Pairwise edgeDistinct)
      (fun st1 row st2 hP hstep => (processRowE_G hstep).2 hP)
      rows initState st List.Pairwise.nil h
  · intro rows₂ st₂ h₂
    have h₂' : List.foldlM (processRowE ctx) st rows₂ = .ok st₂ := by
      rw [runE, List.foldlM_append] at h₂
      rw [runE] at h
      rw [h] at h₂
      exact h₂
    exact foldE_extends (Q := fun a b => ∃ tail, b.G = a.G ++ tail)
      (fun st => ⟨[], by simp⟩)
      (fun a b c h1 h2 => by
        obtain ⟨t1, ht1⟩ := h1
        obtain ⟨t2, ht2⟩ := h2
        exact ⟨t1 ++ t2, by rw [ht2, ht1, List.append_assoc]⟩)
      (fun st1 row st2 hs => (processRowE_G hs).1) rows₂ st st₂ h₂'

/-- Witness for `edge_idempotence`: the invariant and the append-only
extension property at the concrete two-record audi run. -/
theorem edge_idempotence_witness :
    st6.G.Pairwise edgeDistinct ∧ ∃ tail, st6.G = st61.G ++ tail := by
  have h1 := (edge_idempotence.1 ctx6 [row61, row62] st6 (by rfl)).1
  have h2 := (edge_idempotence.1 ctx6 [row61] st61 (by rfl)).2
    [row62] st6 (by rfl)
  exact ⟨h1, h2⟩

/-- Witness for `accepted_triples_distinct`: the single-record audi run; its
one output row has three pairwise-distinct normalized members. -/
theorem accepted_triples_distinct_witness :
    (st61.output_rows.headD default).sender
        ≠ (st61.output_rows.headD default).dataType ∧
    (st61.output_rows.headD default).receiver
        ≠ (st61.output_rows.headD default).dataType ∧
    (st61.output_rows.headD default).sender
        ≠ (st61.output_rows.headD default).receiver :=
  accepted_triples_distinct ctx6 [row61] st61 (by rfl)
    (st61.output_rows.headD default) (by decide)

theorem lookupA_isSome_iff (k : PyStr) (d : AbbrDict) :
    (lookupA k d).isSome = true ↔ k ∈ d.map Prod.fst := by
  induction d with
  | nil => simp [lookupA]
  | cons p rest ih =>
    obtain ⟨a, b⟩ := p
    simp only [lookupA, List.map_cons]
    by_cases hak : a = k
    · subst hak; simp
    · simp only [if_neg hak, List.mem_cons]
      rw [ih]
      constructor
      · exact Or.inr
      · rintro (rfl | h)
        · exact absurd rfl hak
        · exact h

theorem insertIfAbsent_keys (k v : PyStr) (d : AbbrDict) :
    (insertIfAbsent k v d).map Prod.fst =
      if k ∈ d.map Prod.fst then d.map Prod.fst
      else d.map Prod.fst ++ [k] := by
  simp only [insertIfAbsent]
  by_cases h : (lookupA k d).isSome = true
  · rw [if_pos h, if_pos ((lookupA_isSome_iff k d).mp h)]
  · rw [if_neg h, if_neg (fun hm => h ((lookupA_isSome_iff k d).mpr hm))]
    simp

/-- Every successful record step updates the category map by exactly one
first-write-wins insertion keyed on the *raw* `data_type` of the row —
before any normalization has touched it. -/
theorem processRowE_category {ctx : Ctx} {st : BuilderState} {row : RawRow}
    {st' : BuilderState} (h : processRowE ctx st row = .ok st') :
    st'.category_dic =
      insertIfAbsent row.dataType (extract_category row.category)
        st.category_dic := by
  cases hflow : row.flow with
  | none => simp only [processRowE, hflow] at h; cases h
  | some flowItems =>
    simp only [processRowE, hflow] at h
    split at h
    · split at h
      · cases h; rfl
      · cases h
    · cases h; rfl

/-- First-seen deduplication of a key sequence, preserving encounter
order — the key discipline of an insertion-ordered dict written with
`if k not in dict`. -/
def firstSeen (l : List PyStr) : List PyStr :=
  l.foldl (fun acc x => if x ∈ acc then acc else acc ++ [x]) []

theorem runE_category_keys (ctx : Ctx) :
    ∀ (rows : List RawRow) (st0 st : BuilderState),
      List.foldlM (processRowE ctx) st0 rows = .ok st →
      st.category_dic.map Prod.fst =
        (rows.map RawRow.dataType).foldl
          (fun acc x => if x ∈ acc then acc else acc ++ [x])
          (st0.category_dic.map Prod.fst) := by
  intro rows
  induction rows with
  | nil =>
    intro st0 st hrun
    rw [List.foldlM_nil] at hrun
    cases hrun
    rfl
  | cons row rows ih =>
    intro st0 st hrun
    rw [List.foldlM_cons] at hrun
    cases hmid : processRowE ctx st0 row with
    | error e => rw [hmid] at hrun; cases hrun
    | ok st1 =>
      rw [hmid] at hrun
      have hkeys := ih st1 st hrun
      rw [hkeys, processRowE_category hmid, insertIfAbsent_keys]
      rfl

/-- Context of the raw-key example: no main party hits, empty purpose map. -/
def ctx10 : Ctx := ⟨E0, "zzz".toList, []⟩

/-- A record whose raw data type `"XThe"` normalizes to the node label
`"x"` (lower-casing plus literal `"the"` substring removal). -/
def row10 : RawRow :=
  { idx := "2", rawText := "seg".toList, dataType := "XThe".toList,
    category := some [],
    flow := some [⟨"s1".toList, "r1".toList⟩],
    party := some [], purpose := some [], method := some [] }

/-- State after running the builder on the raw-key example. -/
def st10 : BuilderState := (runE ctx10 [row10]).toOption.getD initState

/-- **C10 — claim theorem.**  (1) In every completed run, the key set of the
per-data-type category map is exactly the first-seen deduplication of the
*raw* `data_type` strings of the rows — recorded before singularization,
lower-casing, `"the"` removal and abbreviation folding.  (2) Consequently
the keys can differ from the normalized data-type node labels of the graph:
a record with raw type `"XThe"` puts the key `"XThe"` in the map while the
graph carries the node `"x"` and no node `"XThe"`. -/
theorem category_map_raw_keys :
    (∀ ctx rows st, runE ctx rows = .ok st →
        st.category_dic.map Prod.fst = firstSeen (rows.map RawRow.dataType)) ∧
    st10.category_dic.map Prod.fst = ["XThe".toList] ∧
    hasNode st10.nodes "x".toList = true ∧
    hasNode st10.nodes "XThe".toList = false := by
  refine ⟨?_, by decide, by decide, by decide⟩
  intro ctx rows st h
  exact runE_category_keys ctx rows initState st h

/-- Witness for `category_map_raw_keys`: the general key characterization
applied to the concrete one-record run. -/
theorem category_map_raw_keys_witness :
    st10.category_dic.map Prod.fst
      = firstSeen ([row10].map RawRow.dataType) :=
  category_map_raw_keys.1 ctx10 [row10] st10 (by rfl)

section DedupDisjoint

/-- The `'#'` delimiter does not occur in the string. -/
abbrev hashFree (l : PyStr) : Prop := '#' ∉ l

theorem mem_removeOcc {pat : PyStr} :
    ∀ {fuel : ℕ} {l : PyStr} {c : Char}, c ∈ removeOcc pat fuel l → c ∈ l := by
  intro fuel
  induction fuel with
  | zero =>
    intro l c h
    cases l with
    | nil => simp [removeOcc] at h
    | cons a rest => simpa [removeOcc] using h
  | succ n ih =>
    intro l c h
    cases l with
    | nil => simp [removeOcc] at h
    | cons a rest =>
      simp only [removeOcc] at h
      split at h
      · exact List.mem_of_mem_drop (ih h)
      · rcases List.mem_cons.mp h with rfl | h'
        · exact List.mem_cons_self _ _
        · exact List.mem_cons_of_mem _ (ih h')

theorem mem_pyRemove {pat l : PyStr} {c : Char} (h : c ∈ pyRemove pat l) :
    c ∈ l :=
  mem_removeOcc h

theorem mem_pySplitAux :
    ∀ {fuel : ℕ} {l w : PyStr}, w ∈ pySplitAux fuel l →
      ∀ {c : Char}, c ∈ w → c ∈ l := by
  intro fuel
  induction fuel with
  | zero => intro l w h; simp [pySplitAux] at h
  | succ n ih =>
    intro l w h c hc
    cases l with
    | nil => simp [pySplitAux] at h
    | cons a rest =>
      simp only [pySplitAux] at h
      have hsubdrop : List.Sublist ((a :: rest).dropWhile Char.isWhitespace)
          (a :: rest) := List.dropWhile_sublist _
      cases hl1 : (a :: rest).dropWhile Char.isWhitespace with
      | nil => rw [hl1] at h; simp at h
      | cons b bs =>
        rw [hl1] at h hsubdrop
        rcases List.mem_cons.mp h with rfl | h'
        · exact hsubdrop.subset ((List.takeWhile_sublist _).subset hc)
        · exact hsubdrop.subset ((List.dropWhile_sublist _).subset (ih h' hc))

theorem mem_joinSpace {ws : List PyStr} {c : Char} (h : c ∈ joinSpace ws) :
    c = ' ' ∨ ∃ w ∈ ws, c ∈ w := by
  induction ws with
  | nil => simp [joinSpace] at h
  | cons w ws ih =>
    cases ws with
    | nil =>
      simp only [joinSpace] at h
      exact Or.inr ⟨w, List.mem_cons_self _ _, h⟩
    | cons w2 ws2 =>
      simp only [joinSpace] at h
      rcases List.mem_append.mp h with h' | h'
      · exact Or.inr ⟨w, List.mem_cons_self _ _, h'⟩
      · rcases List.mem_cons.mp h' with rfl | h''
        · exact Or.inl rfl
        · rcases ih h'' with h3 | ⟨w', hw', hc'⟩
          · exact Or.inl h3
          · exact Or.inr ⟨w', List.mem_cons_of_mem _ hw', hc'⟩

theorem mem_remove_spaces {l : PyStr} {c : Char} (h : c ∈ remove_spaces l) :
    c ∈ l := by
  cases l with
  | nil => simp [remove_spaces] at h
  | cons a rest =>
    simp only [remove_spaces] at h
    by_cases ha : a = ' '
    · simp only [if_pos ha] at h
      by_cases hr : rest = [' ']
      · rw [if_pos hr] at h; cases h
      · rw [if_neg hr] at h; exact List.mem_cons_of_mem a h
    · simp only [if_neg ha] at h
      by_cases hr : (a :: rest : PyStr) = [' ']
      · rw [if_pos hr] at h; cases h
      · rw [if_neg hr] at h; exact h

theorem pyLower_hash {c : Char} (h : pyLower c = '#') : c = '#' := by
  simp only [pyLower] at h
  cases hf : lowerTable.find? (fun p => decide (p.1 = c)) with
  | none => rw [hf] at h; simpa using h
  | some p =>
    rw [hf] at h
    simp only [Option.map_some', Option.getD_some] at h
    have hp : p ∈ lowerTable := List.mem_of_find?_eq_some hf
    have hall : ∀ q ∈ lowerTable, q.2 ≠ '#' := by decide
    exact absurd h (hall p hp)

theorem map_pyLower_hashFree {l : PyStr} (h : hashFree l) :
    hashFree (l.map pyLower) := by
  intro hc
  rcases List.mem_map.mp hc with ⟨d, hd, hdc⟩
  exact h (pyLower_hash hdc ▸ hd)

theorem singularize_hashFree {E : Externals}
    (hE : ∀ w r, E.singularNoun w = some r → hashFree r)
    {phrase : PyStr} (hp : hashFree phrase) (excl : List PyStr) :
    hashFree (singularize_phrase E phrase excl) := by
  simp only [singularize_phrase]
  split
  · intro hc
    rcases mem_joinSpace hc with h' | ⟨w', hw', hc'⟩
    · exact absurd h' (by decide)
    · rcases List.mem_map.mp hw' with ⟨w, hw, rfl⟩
      have hwp : hashFree w := fun hmem => hp (mem_pySplitAux hw hmem)
      split at hc'
      · exact hwp hc'
      · cases hsn : E.singularNoun w with
        | none => rw [hsn] at hc'; exact hwp hc'
        | some r =>
          rw [hsn] at hc'
          exact hE w r hsn (by simpa using hc')
  · exact hp

theorem mem_abbrSingleSub1 {text : PyStr} {dict : AbbrDict}
    {abbr sub1 : PyStr} {c : Char}
    (h : c ∈ (abbrSingleSub1 text dict abbr sub1).1) : c ∈ text := by
  simp only [abbrSingleSub1] at h
  split at h
  · split at h
    · exact List.mem_of_mem_filter
        (List.mem_of_mem_filter (mem_pyRemove (mem_remove_spaces h)))
    · exact h
  · exact h

theorem mem_abbrSingleSub2 {text : PyStr} {cur : PyStr × AbbrDict}
    {abbr sub2 : PyStr} {c : Char} (hcur : ∀ x ∈ cur.1, x ∈ text)
    (h : c ∈ (abbrSingleSub2 text cur abbr sub2).1) : c ∈ text := by
  simp only [abbrSingleSub2] at h
  split at h
  · split at h
    · exact List.mem_of_mem_filter
        (List.mem_of_mem_filter (mem_pyRemove (mem_remove_spaces h)))
    · exact hcur c h
  · exact hcur c h

theorem mem_abbrMulti {text : PyStr} {cur : PyStr × AbbrDict}
    {abbr sub : PyStr} {c : Char} (hcur : ∀ x ∈ cur.1, x ∈ text)
    (h : c ∈ (abbrMulti text cur abbr sub).1) : c ∈ text := by
  simp only [abbrMulti] at h
  split at h
  · split at h
    · exact List.mem_of_mem_filter
        (List.mem_of_mem_filter (mem_pyRemove (mem_remove_spaces h)))
    · exact hcur c h
  · exact hcur c h

theorem mem_get_abbreviation {text : PyStr} {dict : AbbrDict} {c : Char}
    (h : c ∈ (get_abbreviation text dict).1) : c ∈ text := by
  simp only [get_abbreviation] at h
  split at h
  · split at h
    · exact mem_abbrSingleSub2 (fun x hx => mem_abbrSingleSub1 hx) h
    · split at h
      · exact mem_abbrMulti
          (fun x hx => mem_abbrMulti (fun y hy => hy) hx) h
      · exact h
  · exact h

/-- The normalization chain introduces no new characters beyond spaces and
the singularizer's outputs: in particular a `'#'`-free raw string with a
`'#'`-free singularizer stays `'#'`-free. -/
theorem normalizeStr_hashFree {E : Externals}
    (hE : ∀ w r, E.singularNoun w = some r → hashFree r)
    (d : AbbrDict) {s0 : PyStr} (h0 : hashFree s0) :
    hashFree (normalizeStr E d s0).1 := by
  have h1 : hashFree ((singularize_phrase E s0 exclusions).map pyLower) :=
    map_pyLower_hashFree (singularize_hashFree hE h0 _)
  have h2 : hashFree (pyRemove "the".toList
      ((singularize_phrase E s0 exclusions).map pyLower)) :=
    fun hc => h1 (mem_pyRemove hc)
  have h3 : hashFree (get_abbreviation (pyRemove "the".toList
      ((singularize_phrase E s0 exclusions).map pyLower)) d).1 :=
    fun hc => h2 (mem_get_abbreviation hc)
  simp only [normalizeStr]
  split
  · exact fun hc => h3 (mem_remove_spaces hc)
  · exact h3

theorem getLast?_append_ne {l₂ : List α} (hne : l₂ ≠ []) (l₁ : List α) :
    (l₁ ++ l₂).getLast? = l₂.getLast? := by
  rw [List.getLast?_append]
  cases h2 : l₂.getLast? with
  | none =>
    exfalso
    cases l₂ with
    | nil => exact hne rfl
    | cons a l => simp [List.getLast?_eq_getLast] at h2
  | some a => rfl

theorem getLast?_mem_self {l : List α} {a : α} (h : l.getLast? = some a) :
    a ∈ l := by
  obtain ⟨hne, rfl⟩ :=
    List.mem_getLast?_eq_getLast (show a ∈ l.getLast? by simp [h])
  exact List.getLast_mem hne

theorem mkKey_head_nonempty {s : PyStr} (hs : s ≠ []) (hf : hashFree s)
    (t r : PyStr) : (mkKey s t r).head? ≠ some '#' := by
  cases s with
  | nil => exact absurd rfl hs
  | cons a s' =>
    simp only [mkKey, List.cons_append, List.head?_cons]
    intro hc
    injection hc with hac
    exact hf (hac ▸ List.mem_cons_self _ _)

theorem mkKey_head_empty (t r : PyStr) : (mkKey [] t r).head? = some '#' := rfl

theorem mkKey_last (s t : PyStr) {r : PyStr} (hr : r ≠ []) :
    (mkKey s t r).getLast? = r.getLast? := by
  simp only [mkKey]
  rw [getLast?_append_ne (by simp) s, ← List.singleton_append,
    getLast?_append_ne (by simp) ['#'], getLast?_append_ne (by simp [hr]) t,
    ← List.singleton_append, getLast?_append_ne hr ['#']]

theorem mkKey_last_nonempty (s t : PyStr) {r : PyStr} (hr : r ≠ [])
    (hf : hashFree r) : (mkKey s t r).getLast? ≠ some '#' := by
  rw [mkKey_last s t hr]
  intro hc
  exact hf (getLast?_mem_self hc)

theorem mkKey_last_empty (s t : PyStr) : (mkKey s t []).getLast? = some '#' := by
  simp only [mkKey]
  rw [getLast?_append_ne (by simp) s, ← List.singleton_append,
    getLast?_append_ne (by simp) ['#'], getLast?_append_ne (by simp) t]
  rfl

/-- Head/last `'#'`-patterns of the three dedup registries: a `completed`
key starts with its nonempty sender and ends with its nonempty receiver, a
`no_sender` key starts with the delimiter, a `no_receiver` key ends with
it. -/
abbrev DedupP (st : BuilderState) : Prop :=
  (∀ k ∈ st.completed, k.head? ≠ some '#' ∧ k.getLast? ≠ some '#') ∧
  (∀ k ∈ st.no_sender, k.head? = some '#' ∧ k.getLast? ≠ some '#') ∧
  (∀ k ∈ st.no_receiver, k.head? ≠ some '#' ∧ k.getLast? = some '#')

/-- Every registered key is the composite key of a gate-passing triple with
the nonemptiness pattern of its registry — in particular a triple with both
sender and receiver empty is recorded in none of the three registries. -/
abbrev OriginP (st : BuilderState) : Prop :=
  (∀ k ∈ st.completed, ∃ s t r, k = mkKey s t r ∧ s ≠ [] ∧ r ≠ []) ∧
  (∀ k ∈ st.no_sender, ∃ t r, k = mkKey [] t r ∧ r ≠ []) ∧
  (∀ k ∈ st.no_receiver, ∃ s t, k = mkKey s t [] ∧ s ≠ [])

theorem applyAccept_completed {ctx : Ctx} {st : BuilderState} {row : RawRow}
    {dc t s r : PyStr} {pa pu me : List CatItem} :
    (applyAccept ctx st row dc t s r pa pu me).completed
      = if s ≠ [] ∧ r ≠ [] ∧ mkKey s t r ∉ st.completed
        then st.completed ++ [mkKey s t r] else st.completed := rfl

theorem applyAccept_no_sender {ctx : Ctx} {st : BuilderState} {row : RawRow}
    {dc t s r : PyStr} {pa pu me : List CatItem} :
    (applyAccept ctx st row dc t s r pa pu me).no_sender
      = if s = [] ∧ r ≠ [] ∧ mkKey s t r ∉ st.no_sender
        then st.no_sender ++ [mkKey s t r] else st.no_sender := rfl

theorem applyAccept_no_receiver {ctx : Ctx} {st : BuilderState} {row : RawRow}
    {dc t s r : PyStr} {pa pu me : List CatItem} :
    (applyAccept ctx st row dc t s r pa pu me).no_receiver
      = if s ≠ [] ∧ r = [] ∧ mkKey s t r ∉ st.no_receiver
        then st.no_receiver ++ [mkKey s t r] else st.no_receiver := rfl

theorem mem_of_guarded_append {l : List PyStr} {k key : PyStr} {P : Prop}
    [Decidable P] (h : k ∈ if P then l ++ [key] else l) :
    k ∈ l ∨ (k = key ∧ P) := by
  split at h
  · rcases List.mem_append.mp h with h' | h'
    · exact Or.inl h'
    · exact Or.inr ⟨List.mem_singleton.mp h', by assumption⟩
  · exact Or.inl h

theorem applyAccept_DedupP {ctx : Ctx} {st : BuilderState} {row : RawRow}
    {dc t s r : PyStr} {pa pu me : List CatItem}
    (hs : hashFree s) (hr : hashFree r) (hinv : DedupP st) :
    DedupP (applyAccept ctx st row dc t s r pa pu me) := by
  obtain ⟨h1, h2, h3⟩ := hinv
  refine ⟨?_, ?_, ?_⟩
  · intro k hk
    rw [applyAccept_completed] at hk
    rcases mem_of_guarded_append hk with hk' | ⟨rfl, hP⟩
    · exact h1 k hk'
    · exact ⟨mkKey_head_nonempty hP.1 hs t r,
        mkKey_last_nonempty s t hP.2.1 hr⟩
  · intro k hk
    rw [applyAccept_no_sender] at hk
    rcases mem_of_guarded_append hk with hk' | ⟨rfl, hP⟩
    · exact h2 k hk'
    · rw [hP.1]
      exact ⟨mkKey_head_empty t r, mkKey_last_nonempty [] t hP.2.1 hr⟩
  · intro k hk
    rw [applyAccept_no_receiver] at hk
    rcases mem_of_guarded_append hk with hk' | ⟨rfl, hP⟩
    · exact h3 k hk'
    · rw [hP.2.1]
      exact ⟨mkKey_head_nonempty hP.1 hs t [], mkKey_last_empty s t⟩

theorem applyAccept_OriginP {ctx : Ctx} {st : BuilderState} {row : RawRow}
    {dc t s r : PyStr} {pa pu me : List CatItem} (hinv : OriginP st) :
    OriginP (applyAccept ctx st row dc t s r pa pu me) := by
  obtain ⟨h1, h2, h3⟩ := hinv
  refine ⟨?_, ?_, ?_⟩
  · intro k hk
    rw [applyAccept_completed] at hk
    rcases mem_of_guarded_append hk with hk' | ⟨rfl, hP⟩
    · exact h1 k hk'
    · exact ⟨s, t, r, rfl, hP.1, hP.2.1⟩
  · intro k hk
    rw [applyAccept_no_sender] at hk
    rcases mem_of_guarded_append hk with hk' | ⟨rfl, hP⟩
    · exact h2 k hk'
    · exact ⟨t, r, by rw [hP.1], hP.2.1⟩
  · intro k hk
    rw [applyAccept_no_receiver] at hk
    rcases mem_of_guarded_append hk with hk' | ⟨rfl, hP⟩
    · exact h3 k hk'
    · exact ⟨s, t, by rw [hP.2.1], hP.1⟩

theorem foldl_last_pair (items : List FlowItem) :
    ∀ acc : PyStr × PyStr,
      items.foldl (fun _ it => (it.sender, it.receiver)) acc = acc ∨
        ∃ it ∈ items,
          items.foldl (fun _ it => (it.sender, it.receiver)) acc
            = (it.sender, it.receiver) := by
  induction items with
  | nil => intro acc; exact Or.inl rfl
  | cons it items ih =>
    intro acc
    rcases ih (it.sender, it.receiver) with h | ⟨it', hmem, h⟩
    · exact Or.inr ⟨it, List.mem_cons_self _ _, by simpa using h⟩
    · exact Or.inr ⟨it', List.mem_cons_of_mem _ hmem, by simpa using h⟩

theorem extract_flow_hashFree {items : List FlowItem}
    (h : ∀ fi ∈ items, hashFree fi.sender ∧ hashFree fi.receiver) :
    hashFree (extract_flow items).1 ∧ hashFree (extract_flow items).2 := by
  rcases foldl_last_pair items ([], []) with h0 | ⟨it, hmem, heq⟩
  · rw [extract_flow, h0]
    exact ⟨(fun hc => by cases hc), (fun hc => by cases hc)⟩
  · rw [extract_flow, heq]
    exact ⟨(h it hmem).1, (h it hmem).2⟩

theorem processRowE_DedupP {ctx : Ctx} {st : BuilderState} {row : RawRow}
    {st' : BuilderState}
    (hE : ∀ w r, ctx.E.singularNoun w = some r → hashFree r)
    (hrow : ∀ fi ∈ row.flow.getD [], hashFree fi.sender ∧ hashFree fi.receiver)
    (h : processRowE ctx st row = .ok st') (hinv : DedupP st) : DedupP st' := by
  cases hflow : row.flow with
  | none => simp only [processRowE, hflow] at h; cases h
  | some flowItems =>
    have hflows : ∀ fi ∈ flowItems,
        hashFree fi.sender ∧ hashFree fi.receiver := by
      rw [hflow] at hrow; exact hrow
    have hfe := extract_flow_hashFree hflows
    simp only [processRowE, hflow] at h
    split at h
    · split at h
      · cases h
        exact applyAccept_DedupP (normalizeStr_hashFree hE _ hfe.1)
          (normalizeStr_hashFree hE _ hfe.2) hinv
      · cases h
    · cases h
      exact hinv

theorem processRowE_OriginP {ctx : Ctx} {st : BuilderState} {row : RawRow}
    {st' : BuilderState} (h : processRowE ctx st row = .ok st')
    (hinv : OriginP st) : OriginP st' := by
  cases hflow : row.flow with
  | none => simp only [processRowE, hflow] at h; cases h
  | some flowItems =>
    simp only [processRowE, hflow] at h
    split at h
    · split at h
      · cases h
        exact applyAccept_OriginP hinv
      · cases h
    · cases h
      exact hinv

/-- Like `foldE_invariant`, with the step restricted to the rows of the
run. -/
theorem foldE_invariant_mem {ctx : Ctx} {P : BuilderState → Prop} :
    ∀ rows : List RawRow,
      (∀ st row st', row ∈ rows → P st →
        processRowE ctx st row = .ok st' → P st') →
      ∀ st0 st, P st0 →
        List.foldlM (processRowE ctx) st0 rows = .ok st → P st := by
  intro rows
  induction rows with
  | nil =>
    intro _ st0 st h0 hrun
    rw [List.foldlM_nil] at hrun
    cases hrun
    exact h0
  | cons row rows ih =>
    intro hstep st0 st h0 hrun
    rw [List.foldlM_cons] at hrun
    cases hmid : processRowE ctx st0 row with
    | error e => rw [hmid] at hrun; cases hrun
    | ok st1 =>
      rw [hmid] at hrun
      exact ih (fun st row' st' hm => hstep st row' st'
          (List.mem_cons_of_mem _ hm)) st1 st
        (hstep st0 row st1 (List.mem_cons_self _ _) h0 hmid) hrun

/-- **C7 — amended claim.**  Provided the `'#'` delimiter occurs in none of
the raw `data_type` / `data_sender` / `data_receiver` strings (and the
external singularizer introduces none), the three flow-dedup registries of a
completed run are pairwise disjoint as sets of composite key strings; and —
unconditionally — every registered key comes from a triple with the
registry's sender/receiver nonemptiness pattern, so a triple with both
sender and receiver empty is recorded in none of the three. -/
theorem dedup_disjoint_amended (ctx : Ctx) (rows : List RawRow)
    (st : BuilderState)
    (hE : ∀ w r, ctx.E.singularNoun w = some r → hashFree r)
    (hrows : ∀ row ∈ rows,
      ∀ fi ∈ row.flow.getD [], hashFree fi.sender ∧ hashFree fi.receiver)
    (h : runE ctx rows = .ok st) :
    st.completed.Disjoint st.no_sender ∧
    st.completed.Disjoint st.no_receiver ∧
    st.no_sender.Disjoint st.no_receiver ∧
    (∀ k ∈ st.completed, ∃ s t r, k = mkKey s t r ∧ s ≠ [] ∧ r ≠ []) ∧
    (∀ k ∈ st.no_sender, ∃ t r, k = mkKey [] t r ∧ r ≠ []) ∧
    (∀ k ∈ st.no_receiver, ∃ s t, k = mkKey s t [] ∧ s ≠ []) := by
  have hD : DedupP st :=
    foldE_invariant_mem rows
      (fun st1 row st2 hm hP hstep =>
        processRowE_DedupP hE (hrows row hm) hstep hP)
      initState st
      ⟨(fun k hk => by cases hk), (fun k hk => by cases hk), (fun k hk => by cases hk)⟩
      h
  have hO : OriginP st :=
    foldE_invariant
      (fun st1 row st2 hP hstep => processRowE_OriginP hstep hP)
      rows initState st
      ⟨(fun k hk => by cases hk), (fun k hk => by cases hk), (fun k hk => by cases hk)⟩
      h
  refine ⟨?_, ?_, ?_, hO.1, hO.2.1, hO.2.2⟩
  · intro k hk1 hk2
    exact (hD.1 k hk1).1 (hD.2.1 k hk2).1
  · intro k hk1 hk2
    exact (hD.1 k hk1).2 (hD.2.2 k hk2).2
  · intro k hk1 hk2
    exact (hD.2.2 k hk2).1 (hD.2.1 k hk1).1

/-- Context of the delimiter-collision counterexample. -/
def ctx7 : Ctx := ⟨E0, "zzz".toList, []⟩

/-- Completed flow `#a → b → c`: its key is the string `"#a#b#c"`. -/
def row71 : RawRow :=
  { idx := "2", rawText := "seg".toList, dataType := "b".toList,
    category := some [],
    flow := some [⟨"#a".toList, "c".toList⟩],
    party := some [], purpose := some [], method := some [] }

/-- Sender-less flow of type `a#b` to `c`: its key is also `"#a#b#c"`. -/
def row72 : RawRow :=
  { idx := "3", rawText := "seg".toList, dataType := "a#b".toList,
    category := some [],
    flow := some [⟨"".toList, "c".toList⟩],
    party := some [], purpose := some [], method := some [] }

/-- State after the two colliding records. -/
def st7 : BuilderState := (runE ctx7 [row71, row72]).toOption.getD initState

/-- **C7 — counterexample.**  When entity strings may contain the `'#'`
delimiter, the composite keys collide across registries: the completed flow
`(sender="#a", type="b", receiver="c")` and the sender-less flow
`(sender="", type="a#b", receiver="c")` both produce the key string
`"#a#b#c"`, so `completed ∩ no_sender ≠ ∅`. -/
theorem dedup_disjoint_cex :
    "#a#b#c".toList ∈ st7.completed ∧
    "#a#b#c".toList ∈ st7.no_sender ∧
    ¬ st7.completed.Disjoint st7.no_sender := by
  exact ⟨by decide, by decide, fun hdisj => @hdisj "#a#b#c".toList (by decide) (by decide)⟩

/-- Witness for `dedup_disjoint_amended`: the `'#'`-free audi run. -/
theorem dedup_disjoint_amended_witness :
    st61.completed.Disjoint st61.no_sender ∧
    st61.completed.Disjoint st61.no_receiver ∧
    st61.no_sender.Disjoint st61.no_receiver ∧
    (∀ k ∈ st61.completed, ∃ s t r, k = mkKey s t r ∧ s ≠ [] ∧ r ≠ []) ∧
    (∀ k ∈ st61.no_sender, ∃ t r, k = mkKey [] t r ∧ r ≠ []) ∧
    (∀ k ∈ st61.no_receiver, ∃ s t, k = mkKey s t [] ∧ s ≠ []) :=
  dedup_disjoint_amended ctx6 [row61] st61
    (fun w r h => nomatch h) (by decide) (by rfl)

end DedupDisjoint

end Builder

section Metrics

/-- Python `/` on numbers exactly as the metrics block uses it —
*unguarded*: a zero denominator raises `ZeroDivisionError`. -/
def pyDiv (a b : ℚ) : Except String ℚ :=
  if b = 0 then .error "ZeroDivisionError: division by zero"
  else .ok (a / b)

/-- `transparency_score = (len(no_receiver) + len(no_sender)) /
len(completed)` from `post_processing` (the source line carries its own
`#TODO: need revise this part` and no zero guard). -/
def transparency_score (completed no_sender no_receiver : List PyStr) :
    Except String ℚ :=
  pyDiv ((no_receiver.length + no_sender.length : ℕ) : ℚ)
    (completed.length : ℚ)

/-- `third_party_score = len(third) / (len(first) + len(user) +
len(third))` — likewise unguarded. -/
def third_party_score (fp tp up : List PyStr) : Except String ℚ :=
  pyDiv (tp.length : ℚ) ((fp.length + up.length + tp.length : ℕ) : ℚ)

/-- `get_percentage(input_data, entity_arr)`: the `None` input (an invalid
centrality option) is the only guarded case and returns `None`; for a list
input the hit count is divided by `len(input_data)` with no emptiness
check — the empty ranking of an empty graph divides by zero. -/
def get_percentage (input_data : Option (List (PyStr × ℚ)))
    (entity_arr : List PyStr) : Except String (Option ℚ) :=
  match input_data with
  | none => .ok none
  | some l =>
    (pyDiv ((l.filter (fun it => decide (it.1 ∈ entity_arr))).length : ℚ)
      (l.length : ℚ)).map some

/-- A document whose only flow lacks a sender: its run completes with an
empty `completed` registry. -/
def stNS : BuilderState := (runE ctx7 [row72]).toOption.getD initState

/-- **C2 — code bug.**  The claim (per the spec's error-handling design)
says zero denominators in the transparency, third-party-ratio and top-N
overlap computations surface as explicit "insufficient data" results.  The
code divides unguarded: with no completed flows the transparency score
raises `ZeroDivisionError`, as does the third-party ratio with empty
registries and `get_percentage` on an *empty* ranking list (only the `None`
ranking is guarded).  The builder run `stNS` — one record whose flow has no
sender — reaches exactly this state. -/
theorem division_guard_code_bug :
    transparency_score [] ["x#t#y".toList] []
        = .error "ZeroDivisionError: division by zero" ∧
    third_party_score [] [] []
        = .error "ZeroDivisionError: division by zero" ∧
    get_percentage (some []) []
        = .error "ZeroDivisionError: division by zero" ∧
    get_percentage none [] = .ok none ∧
    stNS.completed = [] ∧
    transparency_score stNS.completed stNS.no_sender stNS.no_receiver
        = .error "ZeroDivisionError: division by zero" := by
  refine ⟨by rfl, by rfl, by rfl, by rfl, by decide, by rfl⟩

end Metrics

section ParseFailure

/-- A row whose `data_flow` column failed to parse
(`load_json_data` returned `None`). -/
def rowBadFlow : RawRow :=
  { idx := "3", rawText := "seg".toList, dataType := "b".toList,
    category := some [], flow := none,
    party := some [], purpose := some [], method := some [] }

/-- A row whose `data_category` column failed to parse but whose other
fields are fine. -/
def rowBadCategory : RawRow :=
  { idx := "4", rawText := "seg".toList, dataType := "b".toList,
    category := none,
    flow := some [⟨"s1".toList, "r1".toList⟩],
    party := some [], purpose := some [], method := some [] }

/-- A gate-passing row whose `data_collection_party` column failed to
parse. -/
def rowBadParty : RawRow :=
  { idx := "5", rawText := "seg".toList, dataType := "b".toList,
    category := some [],
    flow := some [⟨"s1".toList, "r1".toList⟩],
    party := none, purpose := some [], method := some [] }

/-- State after a run whose only record has an unparseable category field. -/
def stBC : BuilderState :=
  (runE ctx10 [rowBadCategory]).toOption.getD initState

/-- **C3 — code bug.**  The claim says a record any of whose structured JSON
fields fails to parse is reported, excluded from graph construction, and the
loop continues.  In fact `load_json_data` returns `None` and only the
`category` field is `None`-checked: a `None` flow (or party/purpose/method)
field is subscripted and the `TypeError` aborts the whole per-record loop —
a document containing such a record after a good one never finishes; and a
record whose *category* field fails to parse is not excluded at all — it is
accepted into graph construction with an empty category. -/
theorem parse_failure_code_bug :
    processRowE ctx10 initState rowBadFlow
        = .error "TypeError: NoneType is not subscriptable" ∧
    runE ctx10 [row10, rowBadFlow, row10]
        = .error "TypeError: NoneType is not subscriptable" ∧
    processRowE ctx10 initState rowBadParty
        = .error "TypeError: NoneType is not subscriptable" ∧
    stBC.output_rows.length = 1 ∧
    (stBC.output_rows.headD default).dataCategory = [] := by
  refine ⟨by rfl, by rfl, by rfl, by decide, by decide⟩

end ParseFailure



section TreeDetect

/-- Undirected adjacency after `G.to_undirected()`: every edge of the built
multidigraph carries key 0 (parallel edges are never added), so reciprocal
directed edges merge into a single keyed undirected edge and the resulting
multigraph is structurally simple — adjacency is membership of either
orientation in the directed edge list. -/
def udAdj (es : List (PyStr × PyStr)) (u v : PyStr) : Bool :=
  decide ((u, v) ∈ es) || decide ((v, u) ∈ es)

/-- Neighbours of `u` among the nodes `ns`. -/
def nbrs (es : List (PyStr × PyStr)) (ns : List PyStr) (u : PyStr) :
    List PyStr :=
  ns.filter (fun v => udAdj es u v)

/-- Iterated frontier expansion: the undirected reachable set, first-seen
order (fuel ≥ node count reaches the fixpoint). -/
def reachSet (es : List (PyStr × PyStr)) (ns : List PyStr) :
    ℕ → List PyStr → List PyStr
  | 0, cur => cur
  | fuel + 1, cur =>
    reachSet es ns fuel (firstSeen (cur ++ (cur.map (nbrs es ns)).flatten))

/-- The connected component of `u` in the undirected projection. -/
def componentOf (es : List (PyStr × PyStr)) (ns : List PyStr) (u : PyStr) :
    List PyStr :=
  reachSet es ns ns.length [u]

/-- `nx.connected_components` of the undirected projection: scan the nodes
in order, opening a new component for each node not yet collected. -/
def componentsOf (ns : List PyStr) (es : List (PyStr × PyStr)) :
    List (List PyStr) :=
  ns.foldl
    (fun acc u =>
      if acc.any (fun comp => decide (u ∈ comp)) then acc
      else acc ++ [componentOf es ns u]) []

/-- Undirected simple edge count of the subgraph induced by `comp`:
deduplicate the within-component directed edges up to orientation. -/
def udEdgeCount (es : List (PyStr × PyStr)) (comp : List PyStr) : ℕ :=
  ((es.filter (fun e => decide (e.1 ∈ comp) && decide (e.2 ∈ comp))).foldl
    (fun acc e =>
      if decide (e ∈ acc) || decide ((e.2, e.1) ∈ acc) then acc
      else acc ++ [e]) []).length

/-- `nx.is_connected` on the induced subgraph: every node of the component
is reachable from its first node. -/
def isConn (es : List (PyStr × PyStr)) (comp : List PyStr) : Bool :=
  match comp with
  | [] => false
  | u :: _ =>
    comp.all (fun v => decide (v ∈ reachSet es comp comp.length [u]))

/-- `nx.is_tree` on the induced subgraph:
`number_of_nodes = number_of_edges + 1` and connected. -/
def is_tree (es : List (PyStr × PyStr)) (comp : List PyStr) : Bool :=
  decide (comp.length = udEdgeCount es comp + 1) && isConn es comp

/-- `finding_tree(G)` from the source: convert the built graph to its
undirected projection, enumerate the connected components, and report each
component whose induced subgraph is a tree. -/
def finding_tree (ns : List PyStr) (es : List (PyStr × PyStr)) :
    List (List PyStr) :=
  (componentsOf ns es).filter (fun comp => is_tree es comp)

/-- **C8 — claim theorem.**  (1) Tree detection reports exactly those
connected components of the undirected projection whose induced subgraph is
connected with edge count = node count − 1.  (2) A single directed path of
4 nodes and 3 edges is reported as one tree containing all 4 nodes.  (3) A
reciprocal directed pair `a → b`, `b → a` merges into one undirected edge
(the builder's edges all carry key 0), so the 3-node graph with that pair
plus `b → c` is still reported as one tree — the projection is simple. -/
theorem finding_tree_spec :
    (∀ ns es comp, comp ∈ finding_tree ns es ↔
        comp ∈ componentsOf ns es ∧ is_tree es comp = true) ∧
    finding_tree ["a".toList, "b".toList, "c".toList, "d".toList]
        [("a".toList, "b".toList), ("b".toList, "c".toList),
         ("c".toList, "d".toList)]
      = [["a".toList, "b".toList, "c".toList, "d".toList]] ∧
    finding_tree ["a".toList, "b".toList, "c".toList]
        [("a".toList, "b".toList), ("b".toList, "a".toList),
         ("b".toList, "c".toList)]
      = [["a".toList, "b".toList, "c".toList]] := by
  refine ⟨?_, by decide, by decide⟩
  intro ns es comp
  simp [finding_tree, List.mem_filter]

end TreeDetect

section Sampler

/-- `int(len(input_data) * sampling_rate)` of `save_verification2csv`, with
the sampling rate as an exact rational (the Python float idealized):
truncation toward zero equals the floor for a nonnegative rate. -/
def sampling_size (n : ℕ) (rate : ℚ) : ℕ :=
  (Int.floor ((n : ℚ) * rate)).toNat

/-- The contract of `np.random.choice(data, size, replace=False)`: the
library raises when asked for more (distinct) samples than the population
holds; otherwise it returns a uniformly drawn index list, modelled by the
`draw` parameter. -/
def np_random_choice (n size : ℕ) (draw : List ℕ) : Except String (List ℕ) :=
  if size ≤ n then .ok draw
  else .error "ValueError: larger sample than population with replace false"

/-- `random_sampling(input_data, size)` from the source: when the population
is at least the requested size, draw indices without replacement and map
them through the population; otherwise return the whole population
unchanged. -/
def random_sampling [Inhabited α] (input_data : List α) (size : ℕ)
    (draw : List ℕ) : Except String (List α) :=
  if size ≤ input_data.length then
    (np_random_choice input_data.length size draw).map
      (fun idxs => idxs.map (fun i => input_data.getD i default))
  else .ok input_data

/-- The sampling step of `save_verification2csv`:
`random_sampling(input_data, int(len(input_data) * sampling_rate))`. -/
def verification_sample [Inhabited α] (input_data : List α) (rate : ℚ)
    (draw : List ℕ) : Except String (List α) :=
  random_sampling input_data (sampling_size input_data.length rate) draw

/-- **C9 — claim theorem.**  For every rows population and nonnegative
sampling rate the sampler uses sample size `⌊rate · |rows|⌋`; it never
raises: when the population is smaller than the sample size it returns the
entire population with its order unchanged, and otherwise — given the
`np.random.choice` contract for the random draw (right length, distinct
indices, in range) — it returns exactly `size` population elements drawn
without replacement. -/
theorem sampler_spec {α : Type} [Inhabited α] (rows : List α) (rate : ℚ)
    (draw : List ℕ) (_hrate : 0 ≤ rate)
    (hdraw : sampling_size rows.length rate ≤ rows.length →
      draw.length = sampling_size rows.length rate ∧ draw.Nodup ∧
        ∀ i ∈ draw, i < rows.length) :
    ∃ out, verification_sample rows rate draw = .ok out ∧
      (rows.length < sampling_size rows.length rate → out = rows) ∧
      (sampling_size rows.length rate ≤ rows.length →
        out.length = sampling_size rows.length rate ∧
        ∀ x ∈ out, x ∈ rows) := by
  by_cases hle : sampling_size rows.length rate ≤ rows.length
  · obtain ⟨hlen, hnd, hbound⟩ := hdraw hle
    refine ⟨draw.map (fun i => rows.getD i default), ?_, ?_, ?_⟩
    · simp [verification_sample, random_sampling, np_random_choice,
        if_pos hle, Except.map]
    · intro hlt
      omega
    · intro _
      constructor
      · simp [hlen]
      · intro x hx
        rcases List.mem_map.mp hx with ⟨i, hi, rfl⟩
        have hib := hbound i hi
        cases hget : rows.get? i with
        | none =>
          exfalso
          rw [List.get?_eq_none] at hget
          omega
        | some a =>
          have hmem : a ∈ rows := List.get?_mem hget
          have : rows.getD i default = a := by
            rw [List.getD_eq_getElem?_getD, ← List.get?_eq_getElem?, hget]
            rfl
          rw [this]
          exact hmem
  · refine ⟨rows, ?_, fun _ => rfl, fun hge => absurd hge hle⟩
    simp [verification_sample, random_sampling, if_neg hle]

/-- Witness for `sampler_spec`: the spec's own example — a population of 10
rows at rate 0.4 gives sample size 4, drawn without replacement. -/
theorem sampler_spec_witness :
    ∃ out,
      verification_sample (List.range 10) ((2 : ℚ)/5) [0, 1, 2, 3]
          = .ok out ∧
      ((List.range 10).length < sampling_size (List.range 10).length ((2 : ℚ)/5)
          → out = List.range 10) ∧
      (sampling_size (List.range 10).length ((2 : ℚ)/5) ≤ (List.range 10).length →
        out.length = sampling_size (List.range 10).length ((2 : ℚ)/5) ∧
        ∀ x ∈ out, x ∈ List.range 10) :=
  sampler_spec (List.range 10) ((2 : ℚ)/5) [0, 1, 2, 3] (by norm_num)
    (fun _ => ⟨by norm_num [sampling_size]; rfl, by decide, by decide⟩)

end Sampler
